import Mathlib

/-!
Verification of the pdfmaster browser PDF utility suite.

The JavaScript sources are shallowly embedded: a PDF document is a `List`
of abstract page contents, the per-page loops of the tool modules become
`List.foldl`/`List.map` over those lists, JavaScript numbers arising from
`parseInt` are `Option Int` (with `none` playing the role of `NaN`), and
page-copy operations that may throw are pages of type `Option α`
(`none` = the library threw while copying that page).  Progress percents
are rationals.  All definitions below are transcribed from the JavaScript
sources; definitions that instead phrase a property in the specification's
own vocabulary (for comparison against the code) say so in their doc
comments.
-/

namespace PdfMaster

/-- Decimal digit character, as produced by JavaScript number-to-string
conversion for a digit value `n < 10`. -/
def digitChar (n : Nat) : Char := Char.ofNat (48 + n)

/-- Decimal digits of a natural number, most significant first
(accumulator version). -/
def natCharsAux : Nat → List Char → List Char
  | n, acc =>
      if _ : n < 10 then digitChar n :: acc
      else natCharsAux (n / 10) (digitChar (n % 10) :: acc)
  termination_by n _ => n
  decreasing_by exact Nat.div_lt_self (by omega) (by omega)

/-- Decimal digits of a natural number, most significant first. -/
def natChars (n : Nat) : List Char := natCharsAux n []

/-- Decimal string of a natural number, as JavaScript template literals
render a nonnegative integer. -/
def natStr (n : Nat) : String := ⟨natChars n⟩

/-- Numeric value of a list of decimal digit characters, as accumulated by
`parseInt` reading left to right. -/
def digitsToNat (ds : List Char) : Nat :=
  ds.foldl (fun a c => 10 * a + (c.toNat - 48)) 0

/-- `String.prototype.trim`: strip leading and trailing whitespace
(character-list version). -/
def trimChars (l : List Char) : List Char :=
  ((l.dropWhile Char.isWhitespace).reverse.dropWhile Char.isWhitespace).reverse

/-- `String.prototype.trim`. -/
def jsTrim (s : String) : String := ⟨trimChars s.data⟩

/-- `String.prototype.split` with a single-character separator. -/
def jsSplit (s : String) (sep : Char) : List String :=
  (s.data.splitOn sep).map (fun l => ⟨l⟩)

/-- `parseInt(str)` with radix 10: skip leading whitespace, read an
optional sign and then the maximal run of decimal digits; `NaN`
(modelled as `none`) when that run is empty.  Trailing junk is
ignored. -/
def parseIntJS (s : String) : Option Int :=
  let cs := s.data.dropWhile Char.isWhitespace
  let neg : Bool := cs.head? = some '-'
  let cs2 := if cs.head? = some '-' || cs.head? = some '+' then cs.tail else cs
  let ds := cs2.takeWhile Char.isDigit
  if ds.isEmpty then none
  else if neg then some (-(digitsToNat ds : Int))
  else some ((digitsToNat ds : Int))

/-- `Set.prototype.add` under SameValueZero, with the Set's elements kept
in insertion order (the order `Array.from` later observes); a JavaScript
number is `Option Int`, `none` standing for `NaN` (which SameValueZero
identifies with itself, so a `Set` holds at most one `NaN`). -/
def setAdd (pages : List (Option Int)) (v : Option Int) : List (Option Int) :=
  if v ∈ pages then pages else pages ++ [v]

/-- The integers visited by `for (let i = start; i <= end; i++)`: empty
when `start > end`. -/
def intRange (a b : Int) : List Int :=
  (List.range (b + 1 - a).toNat).map (fun k => a + k)

/-- The range branch of `parsePageRange`: add every loop index to the
set. -/
def addRange (pages : List (Option Int)) (a b : Int) : List (Option Int) :=
  (intRange a b).foldl (fun p i => setAdd p (some i)) pages

/-- `Array.from(set).sort((a, b) => a - b)`: numeric ascending sort.  When
`NaN` is present the comparator is inconsistent and ECMA-262 leaves the
resulting order implementation-defined; that case is modelled as keeping
insertion order, and no theorem below relies on it. -/
def jsNumSort (l : List (Option Int)) : List (Option Int) :=
  if l.all Option.isSome then
    ((l.filterMap id).insertionSort (· ≤ ·)).map some
  else l

/-- The `forEach` body of `parsePageRange` (app script, part_000): trim
the token; a token containing a hyphen contributes the inclusive integer
range between its first two hyphen-separated fields (nothing when a
bound is `NaN`, which also covers the empty loop of a reversed range
since the loop itself runs from `start` up to `end`), any other token
contributes `parseInt` of itself (possibly `NaN`). -/
def parseStep (pages : List (Option Int)) (part : String) : List (Option Int) :=
  let part := jsTrim part
  if part.data.contains '-' then
    let nums := (jsSplit part '-').map (fun n => parseIntJS (jsTrim n))
    match nums.getD 0 none, nums.getD 1 none with
    | some a, some b => addRange pages a b
    | _, _ => pages
  else setAdd pages (parseIntJS part)

/-- `parsePageRange` (app script, part_000): split on commas, collect the
pages denoted by each token into a `Set`, and return the set's elements
sorted numerically ascending. -/
def parsePageRange (input : String) : List (Option Int) :=
  jsNumSort ((jsSplit input ',').foldl parseStep [])

/-- Spec-side (C1): a well-formed token of a page-range expression — a
single nonnegative integer or a hyphenated range. -/
inductive PageToken where
  | single (n : Nat)
  | range (a b : Nat)
deriving DecidableEq

/-- Spec-side (C1): canonical decimal rendering of a token. -/
def renderToken : PageToken → List Char
  | .single n => natChars n
  | .range a b => natChars a ++ '-' :: natChars b

/-- Spec-side (C1): the comma-separated expression formed by a token
list. -/
def renderExpr (toks : List PageToken) : String :=
  ⟨List.intercalate [','] (toks.map renderToken)⟩

/-- Spec-side (C1): the page numbers a token denotes — a single integer
denotes itself, a range denotes every integer from its start to its end
inclusive (nothing when reversed). -/
def tokDenote : PageToken → List Int
  | .single n => [(n : Int)]
  | .range a b => intRange (a : Int) (b : Int)

/-- Spec-side (C1): the deduplicated ascending sequence of all denoted
page numbers. -/
def specPages (toks : List PageToken) : List Int :=
  ((toks.flatMap tokDenote).dedup).insertionSort (· ≤ ·)

namespace PDFUtils

/-- `PDFUtils.mergePDFs` (js/utils): create an empty document, then for
each input file copy all of its pages and append them in order. -/
def mergePDFs {α : Type*} (docs : List (List α)) : List α :=
  docs.foldl (fun acc d => acc ++ d) []

/-- `PDFUtils.splitPDF` (js/utils): for each page index `i` of the source,
produce a record with `pageNumber = i+1`, a fresh document holding the
single copied page, and filename `page_${i+1}.pdf`. -/
def splitPDF {α : Type*} (src : List α) : List (Nat × List α × String) :=
  (List.range src.length).map
    (fun i => (i + 1, (src.get? i).toList, "page_" ++ natStr (i + 1) ++ ".pdf"))

/-- A browser `File` as the validators see it: a declared MIME type and a
filename.  No content is inspected. -/
structure JSFile where
  type : String
  name : String

/-- `PDFUtils.isValidPDF` (js/utils): MIME equals `application/pdf`, or the
lowercased filename ends in `.pdf`. -/
def isValidPDF (f : JSFile) : Bool :=
  f.type == "application/pdf" || f.name.toLower.endsWith ".pdf"

/-- `PDFUtils.isValidImage` (js/utils): the declared MIME type is a member
of `['image/jpeg', 'image/png', 'image/jpg']`; the filename is not
consulted. -/
def isValidImage (f : JSFile) : Bool :=
  ["image/jpeg", "image/png", "image/jpg"].contains f.type

end PDFUtils

namespace OrganizeTools

/-- The sorted valid page list computed at the top of
`OrganizeTools.extract` (js/tools/organize.js): requested numbers are
converted to 0-indexed, out-of-range indices are filtered out, and the
remainder is sorted ascending (`.sort((a, b) => a - b)`).  No
deduplication is performed. -/
def validPages (pageNumbers : List Int) (pageCount : Nat) : List Int :=
  List.insertionSort (· ≤ ·)
    ((pageNumbers.map (fun n => n - 1)).filter
      (fun n => decide (0 ≤ n) && decide (n < (pageCount : Int))))

/-- `OrganizeTools.extract` (js/tools/organize.js): copy the pages at the
valid requested indices, in sorted order, into a fresh document. -/
def extract {α : Type*} (src : List α) (pageNumbers : List Int) : List α :=
  (validPages pageNumbers src.length).foldl
    (fun acc n => acc ++ (src.get? n.toNat).toList) []

/-- The `deleteSet` built by `OrganizeTools.deletePages`: requested numbers
converted to 0-indexed and collected into a JavaScript `Set` (modelled as
a deduplicated list; only membership and size are used). -/
def deleteSetOf (toDelete : List Int) : List Int :=
  (toDelete.map (fun n => n - 1)).dedup

/-- `OrganizeTools.deletePages` (js/tools/organize.js): loop over all
source indices, copying every page whose index is not in `deleteSet`. -/
def deletePages {α : Type*} (src : List α) (toDelete : List Int) : List α :=
  (List.range src.length).foldl
    (fun acc (i : Nat) =>
      if (deleteSetOf toDelete).contains (i : Int) then acc
      else acc ++ (src.get? i).toList) []

/-- The sequence of percent values passed to the progress callback by
`OrganizeTools.deletePages`: for the `c`-th kept page (1-based
`processedCount`), `(processedCount / (totalPages - deleteSet.size)) * 100`.
JavaScript division by zero yields `Infinity`; the rational model yields
`0` there, and every theorem below stays away from a zero divisor. -/
def deletePagesProgress (totalPages : Nat) (toDelete : List Int) : List ℚ :=
  let kept := (List.range totalPages).filter
    (fun (i : Nat) => !((deleteSetOf toDelete).contains (i : Int)))
  (List.range kept.length).map
    (fun (c : Nat) => (((c : ℚ) + 1) /
      ((totalPages : ℚ) - ((deleteSetOf toDelete).length : ℚ))) * 100)

/-- `OrganizeTools.rotateAll` (js/tools/organize.js): each page's rotation
becomes its current rotation plus the requested delta (pdf-lib stores the
angle as given; no normalisation is applied). A document is represented
by the list of its pages' rotation angles. -/
def rotateAll (rotations : List Int) (delta : Int) : List Int :=
  rotations.map (fun r => r + delta)

/-- `OrganizeTools.reverse` (js/tools/organize.js): loop `i` from
`totalPages - 1` down to `0`, copying page `i` and appending it to the
new document. Iteration `k` of the loop handles index `length - 1 - k`. -/
def reverse {α : Type*} (src : List α) : List α :=
  (List.range src.length).foldl
    (fun acc k => acc ++ (src.get? (src.length - 1 - k)).toList) []

/-- The page-copy loop of `OrganizeTools.extract` with the library's
`copyPages` call modelled fallibly: source pages are `Option α` and a
`none` page throws.  The loop body has no try/catch, so the first
throwing page aborts the whole run with no partial output. -/
def copyLoop {α : Type*} (src : List (Option α)) : List Int → Except String (List α)
  | [] => Except.ok []
  | n :: rest =>
      match src.getD n.toNat none with
      | none => Except.error "copyPages failed"
      | some v => (copyLoop src rest).map (fun l => v :: l)

/-- `OrganizeTools.extract` over fallible pages (see `copyLoop`). -/
def extractFallible {α : Type*} (src : List (Option α))
    (pageNumbers : List Int) : Except String (List α) :=
  copyLoop src (validPages pageNumbers src.length)

/-- Spec-side vocabulary for C2: "the extracted set" — the set of distinct
valid (in-range) requested 0-indexed pages. -/
def extractedSet (pageNumbers : List Int) (pageCount : Nat) : List Int :=
  ((pageNumbers.map (fun n => n - 1)).filter
    (fun n => decide (0 ≤ n) && decide (n < (pageCount : Int)))).dedup

/-- Spec-side vocabulary for C2: the set of pages actually deleted by
`deletePages` — the distinct requested 0-indexed pages that are in
range. -/
def deletedSet (toDelete : List Int) (pageCount : Nat) : List Int :=
  (deleteSetOf toDelete).filter
    (fun n => decide (0 ≤ n) && decide (n < (pageCount : Int)))

end OrganizeTools

namespace OptimizeTools

/-- `OptimizeTools.repair` (optimize module): copy each page inside a
try/catch — a page whose copy throws (`none`) is skipped with a console
warning; after the loop, if zero pages were copied the operation throws
`Repair failed: No valid pages found in PDF`. -/
def repair {α : Type*} (src : List (Option α)) : Except String (List α) :=
  let copied := src.foldl
    (fun acc p => match p with | some v => acc ++ [v] | none => acc) []
  if copied.length = 0 then
    Except.error "Repair failed: No valid pages found in PDF"
  else Except.ok copied

end OptimizeTools

namespace ConvertToTools

/-- An image file handed to `imagesToPDF`: a declared MIME type, and the
embedding result — `none` when `embedJpg`/`embedPng` throws on its
bytes. -/
structure ImgFile (α : Type*) where
  type : String
  data : Option α

/-- `ConvertToTools.imagesToPDF` (convert-to module): for each file, embed
it according to its MIME type inside a try/catch; an embedding failure is
logged and skipped (`continue`), an unsupported MIME type leaves `image`
undefined so no page is added, and otherwise one page holding the image
is appended. -/
def imagesToPDF {α : Type*} (files : List (ImgFile α)) : List α :=
  files.foldl
    (fun acc f =>
      if f.type == "image/jpeg" || f.type == "image/jpg" then
        match f.data with | some v => acc ++ [v] | none => acc
      else if f.type == "image/png" then
        match f.data with | some v => acc ++ [v] | none => acc
      else acc) []

end ConvertToTools

namespace SecurityTools

/-- The sequence of percent values passed to the progress callback by
`SecurityTools.addWatermark` (js/tools/security.js): `20` on load, `50`
before the loop, `50 + ((i+1)/pages.length)*40` per page, and `100` at
the end. -/
def addWatermarkProgress (pageCount : Nat) : List ℚ :=
  20 :: 50 ::
    ((List.range pageCount).map
      (fun (i : Nat) => 50 + (((i : ℚ) + 1) / (pageCount : ℚ)) * 40) ++ [100])

end SecurityTools

namespace UI

/-- `UI.saveRecentFile` (js/ui.js): unshift the new entry onto the stored
list, then keep only the first 10 entries (`recent.slice(0, 10)`). -/
def saveRecentFile {α : Type*} (entry : α) (recent : List α) : List α :=
  (entry :: recent).take 10

end UI

/-! ## General lemmas about the embedding -/

/-- Pure bookkeeping lemma used throughout: a left fold that appends a
chunk per element is the concatenation of the chunks. -/
theorem foldl_append_eq {α β : Type*} (g : β → List α) :
    ∀ (l : List β) (acc : List α),
      l.foldl (fun a b => a ++ g b) acc = acc ++ l.flatMap g := by
  intro l
  induction l with
  | nil => intro acc; simp
  | cons x xs ih => intro acc; simp [ih]

/-- Congruence for `flatMap`: pointwise-equal chunk functions give equal
concatenations. -/
theorem flatMap_congr {α β : Type*} {l : List α} {f g : α → List β}
    (h : ∀ a ∈ l, f a = g a) : l.flatMap f = l.flatMap g := by
  induction l with
  | nil => rfl
  | cons x xs ih =>
      simp only [List.flatMap_cons]
      rw [h x (by simp), ih (fun a ha => h a (by simp [ha]))]

/-- A fold that appends a chunk only when a boolean test fails is the fold
over the filtered list. -/
theorem foldl_ite_append_eq {α β : Type*} (c : β → Bool) (g : β → List α) :
    ∀ (l : List β) (acc : List α),
      l.foldl (fun a b => if c b then a else a ++ g b) acc =
        acc ++ (l.filter (fun b => !c b)).flatMap g := by
  intro l
  induction l with
  | nil => intro acc; simp
  | cons x xs ih =>
      intro acc
      by_cases h : c x = true <;> simp [h, ih, List.flatMap]

/-- A flatMap whose chunks all have length one has the length of its
index list. -/
theorem length_flatMap_of_forall_one {α β : Type*} (f : β → List α) :
    ∀ (l : List β), (∀ b ∈ l, (f b).length = 1) →
      (l.flatMap f).length = l.length := by
  intro l
  induction l with
  | nil => intro _; rfl
  | cons x xs ih =>
      intro h
      simp only [List.flatMap_cons, List.length_append, List.length_cons]
      rw [h x (by simp), ih (fun b hb => h b (by simp [hb]))]
      omega

/-- An in-range lookup yields a one-element `toList`. -/
theorem toList_get?_length {α : Type*} (src : List α) (i : Nat)
    (h : i < src.length) : ((src.get? i).toList).length = 1 := by
  cases hp : src.get? i with
  | none => exact absurd (List.get?_eq_none.mp hp) (by omega)
  | some p => rfl

/-- Counting lemma: the number of indices below `N` that belong to a
duplicate-free integer list `S` equals the number of elements of `S`
lying in `[0, N)`. -/
theorem length_filter_contains (N : Nat) (S : List Int) (hS : S.Nodup) :
    ((List.range N).filter (fun (i : Nat) => S.contains (i : Int))).length =
      (S.filter (fun n => decide (0 ≤ n) && decide (n < (N : Int)))).length := by
  have hinj : Function.Injective (fun i : Nat => (i : Int)) :=
    fun a b h => Int.natCast_inj.mp h
  have hL : (((List.range N).filter (fun (i : Nat) => S.contains (i : Int))).map
      (fun i : Nat => (i : Int))).Nodup :=
    ((List.nodup_range N).filter _).map hinj
  have hR : (S.filter (fun n => decide (0 ≤ n) && decide (n < (N : Int)))).Nodup :=
    hS.filter _
  have hperm : (((List.range N).filter (fun (i : Nat) => S.contains (i : Int))).map
      (fun i : Nat => (i : Int))).Perm
        (S.filter (fun n => decide (0 ≤ n) && decide (n < (N : Int)))) := by
    rw [List.perm_ext_iff_of_nodup hL hR]
    intro v
    constructor
    · intro hv
      obtain ⟨i, hi, rfl⟩ := List.mem_map.mp hv
      obtain ⟨hiN, hiS⟩ := List.mem_filter.mp hi
      have hiN' : i < N := List.mem_range.mp hiN
      have hmem : (i : Int) ∈ S := by simpa using hiS
      refine List.mem_filter.mpr ⟨hmem, ?_⟩
      simp only [Bool.and_eq_true, decide_eq_true_eq]
      omega
    · intro hv
      obtain ⟨hvS, hvr⟩ := List.mem_filter.mp hv
      simp only [Bool.and_eq_true, decide_eq_true_eq] at hvr
      refine List.mem_map.mpr ⟨v.toNat, ?_, by omega⟩
      refine List.mem_filter.mpr ⟨List.mem_range.mpr (by omega), ?_⟩
      have : ((v.toNat : Int)) = v := by omega
      simpa [this] using hvS
  have := hperm.length_eq
  simpa [List.length_map] using this

/-- Complement form of the counting lemma, matching the `deletePages`
loop. -/
theorem length_filter_not_contains (N : Nat) (S : List Int) (hS : S.Nodup) :
    ((List.range N).filter (fun (i : Nat) => !(S.contains (i : Int)))).length =
      N - (S.filter (fun n => decide (0 ≤ n) && decide (n < (N : Int)))).length := by
  have hsplit := List.length_eq_length_filter_add
    (fun i : Nat => S.contains (i : Int)) (l := List.range N)
  rw [List.length_range] at hsplit
  rw [← length_filter_contains N S hS]
  omega

/-- The fold inside `repair` collects exactly the successfully copied
pages, in order. -/
theorem repair_fold_eq {α : Type*} :
    ∀ (src : List (Option α)) (acc : List α),
      src.foldl (fun acc p => match p with
        | some v => acc ++ [v] | none => acc) acc =
        acc ++ src.reduceOption := by
  intro src
  induction src with
  | nil => intro acc; simp [List.reduceOption]
  | cons p ps ih =>
      intro acc
      cases p with
      | none => simp [ih, List.reduceOption]
      | some v => simp [ih, List.reduceOption]

/-- Folding `saveRecentFile` over a history of operations, starting from a
list that is already cut to 10, keeps the 10 most recent, newest first. -/
theorem saveRecentFile_foldl {α : Type*} :
    ∀ (es l : List α),
      es.foldl (fun acc e => UI.saveRecentFile e acc) (l.take 10) =
        (es.reverse ++ l).take 10 := by
  intro es
  induction es with
  | nil => intro l; simp
  | cons e tl ih =>
      intro l
      have step : UI.saveRecentFile e (l.take 10) = (e :: l).take 10 := by
        simp [UI.saveRecentFile, List.take_take]
      calc (e :: tl).foldl (fun acc e => UI.saveRecentFile e acc) (l.take 10)
          = tl.foldl (fun acc e => UI.saveRecentFile e acc) ((e :: l).take 10) := by
            simp [step]
        _ = (tl.reverse ++ (e :: l)).take 10 := ih (e :: l)
        _ = ((e :: tl).reverse ++ l).take 10 := by
            simp

/-- Every member of `validPages` is an in-range 0-indexed page. -/
theorem validPages_mem_range {nums : List Int} {N : Nat} {n : Int}
    (h : n ∈ OrganizeTools.validPages nums N) : 0 ≤ n ∧ n < (N : Int) := by
  unfold OrganizeTools.validPages at h
  rw [List.mem_insertionSort] at h
  obtain ⟨-, hcond⟩ := List.mem_filter.mp h
  simpa using hcond

/-- If some requested index points at a throwing page, the copy loop of
`extract` aborts with an error. -/
theorem copyLoop_error {α : Type*} (src : List (Option α)) :
    ∀ l : List Int, (∃ n ∈ l, src.getD n.toNat none = none) →
      ∃ e, OrganizeTools.copyLoop src l = Except.error e := by
  intro l
  induction l with
  | nil => rintro ⟨n, hn, -⟩; cases hn
  | cons n rest ih =>
      rintro ⟨m, hm, hthrow⟩
      cases hget : src.getD n.toNat none with
      | none =>
          exact ⟨"copyPages failed", by unfold OrganizeTools.copyLoop; rw [hget]⟩
      | some v =>
          rcases List.mem_cons.mp hm with rfl | hm'
          · rw [hget] at hthrow
            exact (Option.some_ne_none v hthrow).elim
          · obtain ⟨e, he⟩ := ih ⟨m, hm', hthrow⟩
            exact ⟨e, by unfold OrganizeTools.copyLoop; rw [hget, he]; rfl⟩

/-! ## Claims -/

/-- C5: merging two single-page documents yields a two-page document with
document A's page first and document B's page second; in general,
`mergePDFs` concatenates the input documents' pages in input order. -/
theorem C5_merge_concatenates {α : Type*} :
    (∀ a b : α, PDFUtils.mergePDFs [[a], [b]] = [a, b]) ∧
      ∀ docs : List (List α), PDFUtils.mergePDFs docs = docs.flatten := by
  constructor
  · intro a b; rfl
  · intro docs
    have h := foldl_append_eq (fun d : List α => d) docs []
    simpa [PDFUtils.mergePDFs, List.flatMap] using h

/-- C6: splitting an `N`-page document yields exactly `N` outputs in source
order; output `i` (1-based) is a single-page document holding source page
`i`, carries `pageNumber i`, and is named `page_i.pdf`. -/
theorem C6_split_per_page {α : Type*} (src : List α) :
    (PDFUtils.splitPDF src).length = src.length ∧
      ∀ i : Nat, i < src.length →
        ∃ p, src.get? i = some p ∧
          (PDFUtils.splitPDF src).get? i =
            some (i + 1, [p], "page_" ++ natStr (i + 1) ++ ".pdf") := by
  constructor
  · simp [PDFUtils.splitPDF]
  · intro i hi
    cases hp : src.get? i with
    | none =>
        exact absurd (List.get?_eq_none.mp hp) (by omega)
    | some p =>
        refine ⟨p, rfl, ?_⟩
        rw [List.get?_eq_getElem?]
        simp only [PDFUtils.splitPDF, List.getElem?_map, List.getElem?_range hi,
          Option.map_some']
        rw [hp]
        rfl

/-- C6 witness: concrete evaluation on a two-page document. -/
theorem C6_split_per_page_witness :
    ∃ p, ([10, 20] : List Nat).get? 1 = some p ∧
      (PDFUtils.splitPDF [10, 20]).get? 1 =
        some (2, [p], "page_" ++ natStr 2 ++ ".pdf") :=
  (C6_split_per_page [10, 20]).2 1 (by decide)

/-- C7: rotating every page by 90° twice equals rotating once by 180°:
rotation deltas accumulate additively onto each page's existing angle, so
the results agree exactly and hence also modulo 360. -/
theorem C7_rotate_additive :
    ∀ (doc : List Int) (d₁ d₂ : Int),
      OrganizeTools.rotateAll (OrganizeTools.rotateAll doc d₁) d₂ =
          OrganizeTools.rotateAll doc (d₁ + d₂) ∧
        OrganizeTools.rotateAll (OrganizeTools.rotateAll doc 90) 90 =
          OrganizeTools.rotateAll doc 180 ∧
        (OrganizeTools.rotateAll (OrganizeTools.rotateAll doc 90) 90).map (· % 360) =
          (OrganizeTools.rotateAll doc 180).map (· % 360) := by
  have key : ∀ (doc : List Int) (d₁ d₂ : Int),
      OrganizeTools.rotateAll (OrganizeTools.rotateAll doc d₁) d₂ =
        OrganizeTools.rotateAll doc (d₁ + d₂) := by
    intro doc d₁ d₂
    simp [OrganizeTools.rotateAll, List.map_map, Function.comp, add_assoc]
  intro doc d₁ d₂
  refine ⟨key doc d₁ d₂, ?_, ?_⟩
  · have h := key doc 90 90
    norm_num at h
    exact h
  · have h := key doc 90 90
    norm_num at h
    rw [h]

/-- C9: the recent-activity list never exceeds 10 entries and the newest
entry is at the front; replaying any 11 operations from an empty store
retains exactly the 10 most recent, most recent first. -/
theorem C9_recent_capped {α : Type*} :
    (∀ (e : α) (recent : List α),
        (UI.saveRecentFile e recent).length ≤ 10 ∧
          (UI.saveRecentFile e recent).head? = some e) ∧
      ∀ es : List α, es.length = 11 →
        es.foldl (fun acc e => UI.saveRecentFile e acc) [] = es.reverse.take 10 := by
  constructor
  · intro e recent
    constructor
    · simp [UI.saveRecentFile]
    · simp [UI.saveRecentFile]
  · intro es _
    have h := saveRecentFile_foldl es ([] : List α)
    simpa using h

/-- C9 witness: replaying the 11 operations `0..10` keeps `10,9,...,1`. -/
theorem C9_recent_capped_witness :
    (List.range 11).foldl (fun acc e => UI.saveRecentFile e acc) [] =
      (List.range 11).reverse.take 10 :=
  (C9_recent_capped (α := Nat)).2 (List.range 11) (by decide)

/-- C10: reversing an `N`-page document yields the `N` pages in reverse
order (output page `i` is source page `N-1-i`), and reversing twice gives
back the original page sequence. -/
theorem C10_reverse_pages {α : Type*} (src : List α) :
    OrganizeTools.reverse src = src.reverse ∧
      (OrganizeTools.reverse src).length = src.length ∧
      (∀ i : Nat, i < src.length →
        (OrganizeTools.reverse src).get? i = src.get? (src.length - 1 - i)) ∧
      OrganizeTools.reverse (OrganizeTools.reverse src) = src := by
  have key : ∀ (l : List α), OrganizeTools.reverse l = l.reverse := by
    have flat : ∀ (l : List α),
        OrganizeTools.reverse l =
          (List.range l.length).flatMap
            (fun k => (l.get? (l.length - 1 - k)).toList) := by
      intro l
      unfold OrganizeTools.reverse
      rw [foldl_append_eq]
      simp
    intro l
    rw [flat]
    induction l with
    | nil => simp
    | cons x xs ih =>
        rw [List.length_cons, List.range_succ, List.flatMap_append]
        have htail : ([xs.length].flatMap
            (fun k => ((x :: xs).get? (xs.length + 1 - 1 - k)).toList)) = [x] := by
          simp
        have hhead : (List.range xs.length).flatMap
              (fun k => ((x :: xs).get? (xs.length + 1 - 1 - k)).toList) =
            (List.range xs.length).flatMap
              (fun k => (xs.get? (xs.length - 1 - k)).toList) := by
          apply flatMap_congr
          intro k hk
          have hk' : k < xs.length := List.mem_range.mp hk
          have hidx : xs.length + 1 - 1 - k = (xs.length - 1 - k) + 1 := by omega
          rw [hidx, List.get?_cons_succ]
        rw [htail, hhead, ih, List.reverse_cons]
  refine ⟨key src, ?_, ?_, ?_⟩
  · rw [key]; simp
  · intro i hi
    rw [key, List.get?_eq_getElem?, List.get?_eq_getElem?, List.getElem?_reverse hi]
  · rw [key, key]; simp

/-- C10 witness: concrete evaluation on a three-page document. -/
theorem C10_reverse_pages_witness :
    (OrganizeTools.reverse [1, 2, 3] : List Nat).get? 0 =
      ([1, 2, 3] : List Nat).get? (3 - 1 - 0) :=
  (C10_reverse_pages [1, 2, 3]).2.2.1 0 (by decide)

/-- C2 counterexample: with the duplicate request `[1, 1]` on a two-page
document, `extract` copies page 1 twice, so the output page count (2)
differs from the size of the extracted set (`{1}`, size 1). -/
theorem C2_count_counterexample :
    (OrganizeTools.extract ([10, 20] : List Nat) [1, 1]).length = 2 ∧
      (OrganizeTools.extractedSet [1, 1] 2).length = 1 ∧
      (OrganizeTools.extract ([10, 20] : List Nat) [1, 1]).length ≠
        (OrganizeTools.extractedSet [1, 1] 2).length := by
  refine ⟨?_, ?_, ?_⟩ <;> decide

/-- C2 (amended): `extract` returns one page per valid (in-range)
requested entry counted with multiplicity — equal to the size of the
extracted set whenever the requested numbers are duplicate-free;
out-of-range requests are silently dropped; `deletePages` returns the
source page count minus the number of distinct in-range deleted pages;
and no deleted page's content appears in the output (stated for
pairwise-distinct source pages). -/
theorem C2_extract_delete_counts {α : Type*} :
    (∀ (src : List α) (nums : List Int),
        (OrganizeTools.extract src nums).length =
          (OrganizeTools.validPages nums src.length).length) ∧
      (∀ (src : List α) (nums : List Int) (m : Int),
        ¬(1 ≤ m ∧ m ≤ (src.length : Int)) →
          OrganizeTools.extract src (nums ++ [m]) =
            OrganizeTools.extract src nums) ∧
      (∀ (src : List α) (nums : List Int), nums.Nodup →
        (OrganizeTools.extract src nums).length =
          (OrganizeTools.extractedSet nums src.length).length) ∧
      (∀ (src : List α) (del : List Int),
        (OrganizeTools.deletePages src del).length =
          src.length - (OrganizeTools.deletedSet del src.length).length) ∧
      (∀ (src : List α) (del : List Int) (p : α), src.Nodup →
        (∃ n ∈ OrganizeTools.deletedSet del src.length,
            src.get? n.toNat = some p) →
          p ∉ OrganizeTools.deletePages src del) := by
  have hlen : ∀ (src : List α) (nums : List Int),
      (OrganizeTools.extract src nums).length =
        (OrganizeTools.validPages nums src.length).length := by
    intro src nums
    unfold OrganizeTools.extract
    rw [foldl_append_eq]
    simp only [List.nil_append]
    apply length_flatMap_of_forall_one
    intro n hn
    have hr := validPages_mem_range hn
    exact toList_get?_length src n.toNat (by omega)
  have hdel : ∀ (src : List α) (del : List Int),
      (OrganizeTools.deletePages src del).length =
        src.length - (OrganizeTools.deletedSet del src.length).length := by
    intro src del
    unfold OrganizeTools.deletePages
    rw [foldl_ite_append_eq]
    simp only [List.nil_append]
    rw [length_flatMap_of_forall_one]
    · exact length_filter_not_contains src.length (OrganizeTools.deleteSetOf del)
        (List.nodup_dedup _)
    · intro i hi
      have : i < src.length := List.mem_range.mp (List.mem_filter.mp hi).1
      exact toList_get?_length src i this
  refine ⟨hlen, ?_, ?_, hdel, ?_⟩
  · intro src nums m hm
    unfold OrganizeTools.extract OrganizeTools.validPages
    have hb : (decide ((0 : Int) ≤ m - 1) &&
        decide (m - 1 < (src.length : Int))) = false := by
      by_cases h2 : (0 : Int) ≤ m - 1
      · have h3 : ¬(m - 1 < (src.length : Int)) := by omega
        simp [h3]
      · simp [h2]
    have hfil : List.filter
        (fun n => decide (0 ≤ n) && decide (n < (src.length : Int)))
        [m - 1] = [] := by
      rw [List.filter_cons, hb]
      rfl
    rw [List.map_append, List.filter_append, List.map_cons, List.map_nil,
      hfil, List.append_nil]
  · intro src nums hnd
    rw [hlen]
    have hperm := List.perm_insertionSort (α := Int) (· ≤ ·)
      ((nums.map (fun n => n - 1)).filter
        (fun n => decide (0 ≤ n) && decide (n < (src.length : Int))))
    have hfil : ((nums.map (fun n => n - 1)).filter
        (fun n => decide (0 ≤ n) && decide (n < (src.length : Int)))).Nodup := by
      refine List.Nodup.filter _ (List.Nodup.map ?_ hnd)
      intro a b h
      have h' : a - 1 = b - 1 := h
      omega
    unfold OrganizeTools.validPages OrganizeTools.extractedSet
    rw [hperm.length_eq, List.dedup_eq_self.mpr hfil]
  · intro src del p hnd hex hp
    obtain ⟨n, hnmem, hget⟩ := hex
    have hnS : n ∈ OrganizeTools.deleteSetOf del ∧
        0 ≤ n ∧ n < (src.length : Int) := by
      obtain ⟨h1, h2⟩ := List.mem_filter.mp hnmem
      simp only [Bool.and_eq_true, decide_eq_true_eq] at h2
      exact ⟨h1, h2.1, h2.2⟩
    unfold OrganizeTools.deletePages at hp
    rw [foldl_ite_append_eq] at hp
    simp only [List.nil_append] at hp
    rw [List.mem_flatMap] at hp
    obtain ⟨i, hi, hpi⟩ := hp
    obtain ⟨hirange, hcond⟩ := List.mem_filter.mp hi
    have hiN : i < src.length := List.mem_range.mp hirange
    have hnotin : (i : Int) ∉ OrganizeTools.deleteSetOf del := by
      intro hmem
      simp [hmem] at hcond
    have hgeti : src.get? i = some p := by
      cases hgi : src.get? i with
      | none => rw [hgi] at hpi; cases hpi
      | some q =>
          rw [hgi] at hpi
          simp only [Option.toList_some, List.mem_singleton] at hpi
          rw [hpi]
    obtain ⟨hi1, ei⟩ := List.get?_eq_some.mp hgeti
    obtain ⟨hi2, en⟩ := List.get?_eq_some.mp hget
    have hinj := List.nodup_iff_injective_get.mp hnd (ei.trans en.symm)
    have : i = n.toNat := congrArg Fin.val hinj
    apply hnotin
    have hcast : (i : Int) = n := by omega
    rw [hcast]
    exact hnS.1

/-- C2 witness: on a three-page document, extracting the duplicate-free
request `[1, 3]` yields as many pages as the extracted set has
elements. -/
theorem C2_extract_delete_counts_witness :
    (OrganizeTools.extract ([10, 20, 30] : List Nat) [1, 3]).length =
      (OrganizeTools.extractedSet [1, 3] 3).length :=
  (C2_extract_delete_counts).2.2.1 [10, 20, 30] [1, 3] (by decide)

/-- C3 counterexample: `imagesToPDF` is a multi-page operation other than
`repair`, yet on a failing middle image it logs, skips, and produces
partial output instead of propagating the exception. -/
theorem C3_only_repair_counterexample :
    ConvertToTools.imagesToPDF
        [⟨"image/png", some 1⟩, ⟨"image/png", none⟩, ⟨"image/png", some 2⟩] =
      ([1, 2] : List Nat) ∧ ([1, 2] : List Nat) ≠ [] := by
  exact ⟨rfl, by decide⟩

/-- C3 (amended): `repair` and `imagesToPDF` both tolerate per-page
failures — `repair` skips pages whose copy throws and fails only when
zero pages could be copied, and `imagesToPDF` skips an image whose
embedding throws and continues — while the `extract` page-copy loop
propagates any page-level exception and aborts the run. -/
theorem C3_per_page_failure_policy {α : Type*} :
    (∀ src : List (Option α), src.reduceOption ≠ [] →
        OptimizeTools.repair src = Except.ok src.reduceOption) ∧
      (∀ src : List (Option α), src.reduceOption = [] →
        OptimizeTools.repair src =
          Except.error "Repair failed: No valid pages found in PDF") ∧
      (∀ (pre post : List (ConvertToTools.ImgFile α))
          (f : ConvertToTools.ImgFile α), f.data = none →
        ConvertToTools.imagesToPDF (pre ++ f :: post) =
          ConvertToTools.imagesToPDF (pre ++ post)) ∧
      (∀ (src : List (Option α)) (nums : List Int),
        (∃ n ∈ OrganizeTools.validPages nums src.length,
            src.getD n.toNat none = none) →
          ∃ e, OrganizeTools.extractFallible src nums = Except.error e) := by
  refine ⟨?_, ?_, ?_, ?_⟩
  · intro src h
    unfold OptimizeTools.repair
    rw [repair_fold_eq]
    simp [List.length_eq_zero, h]
  · intro src h
    unfold OptimizeTools.repair
    rw [repair_fold_eq]
    simp [List.length_eq_zero, h]
  · intro pre post f hdata
    unfold ConvertToTools.imagesToPDF
    rw [List.foldl_append, List.foldl_append, List.foldl_cons]
    congr 1
    by_cases h1 : (f.type == "image/jpeg" || f.type == "image/jpg") = true
    · simp [h1, hdata]
    · by_cases h2 : (f.type == "image/png") = true
      · simp [h1, h2, hdata]
      · simp [h1, h2]
  · intro src nums hex
    exact copyLoop_error src _ hex

/-- C3 witness: repair of a document whose second page throws succeeds
with the surviving page. -/
theorem C3_per_page_failure_policy_witness :
    OptimizeTools.repair [some 1, (none : Option Nat)] =
      Except.ok ([some 1, (none : Option Nat)].reduceOption) :=
  (C3_per_page_failure_policy).1 [some 1, none] (by decide)

/-- C4 counterexample: with an out-of-range deletion request (delete page
5 of a 2-page document), `deletePages` reports a percent of 200, outside
`[0, 100]` — the JavaScript computes the same value, since
`deleteSet.size` counts the out-of-range entry. -/
theorem C4_progress_counterexample :
    (200 : ℚ) ∈ OrganizeTools.deletePagesProgress 2 [5] ∧
      ¬((200 : ℚ) ≤ 100) := by
  refine ⟨?_, by norm_num⟩
  have h0 : OrganizeTools.deleteSetOf [5] = [4] := by decide
  simp only [OrganizeTools.deletePagesProgress, h0]
  refine List.mem_map.mpr ⟨1, ?_, ?_⟩
  · decide
  · norm_num

/-- C4 (amended): when every requested deletion is in range, every percent
reported by `deletePages` lies in `[0, 100]`; the percents reported by
`addWatermark` always lie in `[0, 100]`. -/
theorem C4_progress_in_range :
    (∀ (totalPages : Nat) (toDelete : List Int),
        (∀ n ∈ toDelete, 1 ≤ n ∧ n ≤ (totalPages : Int)) →
        ∀ q ∈ OrganizeTools.deletePagesProgress totalPages toDelete,
          0 ≤ q ∧ q ≤ 100) ∧
      ∀ pageCount : Nat,
        ∀ q ∈ SecurityTools.addWatermarkProgress pageCount,
          0 ≤ q ∧ q ≤ 100 := by
  constructor
  · intro N del hdel q hq
    simp only [OrganizeTools.deletePagesProgress, List.mem_map,
      List.mem_range] at hq
    obtain ⟨c, hc, rfl⟩ := hq
    have hS : (OrganizeTools.deleteSetOf del).Nodup := List.nodup_dedup _
    have hSrange : ∀ s ∈ OrganizeTools.deleteSetOf del,
        0 ≤ s ∧ s < (N : Int) := by
      intro s hs
      rw [OrganizeTools.deleteSetOf, List.mem_dedup, List.mem_map] at hs
      obtain ⟨n, hn, rfl⟩ := hs
      have := hdel n hn
      omega
    have hfil : (OrganizeTools.deleteSetOf del).filter
        (fun n => decide (0 ≤ n) && decide (n < (N : Int))) =
          OrganizeTools.deleteSetOf del := by
      apply List.filter_eq_self.mpr
      intro s hs
      have := hSrange s hs
      simp only [Bool.and_eq_true, decide_eq_true_eq]
      omega
    have hkept := length_filter_not_contains N (OrganizeTools.deleteSetOf del) hS
    rw [hfil] at hkept
    rw [hkept] at hc
    have hSle : (OrganizeTools.deleteSetOf del).length ≤ N := by
      have h1 := length_filter_contains N (OrganizeTools.deleteSetOf del) hS
      have h2 := List.length_filter_le
        (fun (i : Nat) => (OrganizeTools.deleteSetOf del).contains (i : Int))
        (List.range N)
      rw [List.length_range] at h2
      rw [hfil] at h1
      omega
    set K : Nat := N - (OrganizeTools.deleteSetOf del).length with hK
    have hKpos : 0 < K := by omega
    have hcast : (N : ℚ) - ((OrganizeTools.deleteSetOf del).length : ℚ) = (K : ℚ) := by
      rw [hK]
      push_cast [Nat.cast_sub hSle]
      ring
    rw [hcast]
    have hKQ : (0 : ℚ) < (K : ℚ) := by exact_mod_cast hKpos
    constructor
    · positivity
    · have hle : ((c : ℚ) + 1) / (K : ℚ) ≤ 1 := by
        rw [div_le_one hKQ]
        exact_mod_cast hc
      nlinarith
  · intro n q hq
    simp only [SecurityTools.addWatermarkProgress, List.mem_cons,
      List.mem_append, List.mem_map, List.mem_range,
      List.mem_singleton] at hq
    rcases hq with rfl | rfl | ⟨i, hi, rfl⟩ | rfl | h
    case inr.inr.inr.inr => cases h
    · norm_num
    · norm_num
    · have hn : (0 : ℚ) < (n : ℚ) := by
        have : 0 < n := by omega
        exact_mod_cast this
      have h0 : (0 : ℚ) ≤ ((i : ℚ) + 1) / (n : ℚ) := by positivity
      have h1 : ((i : ℚ) + 1) / (n : ℚ) ≤ 1 := by
        rw [div_le_one hn]
        exact_mod_cast hi
      constructor <;> nlinarith
    · norm_num

/-- C4 witness: deleting the in-range page 1 of a 2-page document reports
the percent 100, which the amended bound accepts. -/
theorem C4_progress_in_range_witness : (0 : ℚ) ≤ 100 ∧ (100 : ℚ) ≤ 100 :=
  (C4_progress_in_range).1 2 [1] (by decide) 100 (by
    have h0 : OrganizeTools.deleteSetOf [1] = [0] := by decide
    simp only [OrganizeTools.deletePagesProgress, h0]
    refine List.mem_map.mpr ⟨0, ?_, ?_⟩
    · decide
    · norm_num)

/-- C8: file-type validation decides from the declared MIME type and/or
filename extension only: MIME `application/pdf` passes the PDF check
whatever the filename; a PNG file (declared MIME `image/png`, as the
browser reports for a `.png` file) passes the image check; a PDF file
(MIME `application/pdf`) fails the image check, whose verdict never
depends on the filename. -/
theorem C8_validators :
    (∀ name : String, PDFUtils.isValidPDF ⟨"application/pdf", name⟩ = true) ∧
      (∀ name : String, PDFUtils.isValidImage ⟨"image/png", name⟩ = true) ∧
      (∀ name : String, PDFUtils.isValidImage ⟨"application/pdf", name⟩ = false) ∧
      ∀ t n₁ n₂ : String,
        PDFUtils.isValidImage ⟨t, n₁⟩ = PDFUtils.isValidImage ⟨t, n₂⟩ := by
  refine ⟨?_, ?_, ?_, ?_⟩
  · intro name; simp [PDFUtils.isValidPDF]
  · intro name; rfl
  · intro name; rfl
  · intro t n₁ n₂; rfl

/-! ## Page-range parser lemmas -/

/-- Basic facts about decimal digit characters, checked by computation. -/
theorem digitChar_facts : ∀ k < 10, (digitChar k).isDigit = true ∧
    (digitChar k).isWhitespace = false ∧ digitChar k ≠ '-' ∧
    digitChar k ≠ ',' ∧ digitChar k ≠ '+' ∧ (digitChar k).toNat = 48 + k := by
  decide

/-- The accumulator of `natCharsAux` is just appended. -/
theorem natCharsAux_append : ∀ (n : Nat) (acc : List Char),
    natCharsAux n acc = natChars n ++ acc := by
  intro n
  induction n using Nat.strong_induction_on with
  | _ n ih =>
      intro acc
      by_cases h : n < 10
      · unfold natChars natCharsAux
        simp [h]
      · have hlt : n / 10 < n := Nat.div_lt_self (by omega) (by omega)
        have hstep : ∀ acc2 : List Char,
            natCharsAux n acc2 =
              natCharsAux (n / 10) (digitChar (n % 10) :: acc2) := by
          intro acc2
          conv_lhs => unfold natCharsAux
          rw [dif_neg h]
        unfold natChars
        rw [hstep acc, hstep [], ih _ hlt, ih _ hlt]
        simp

/-- Decomposition of the digit string of a number of two or more
digits. -/
theorem natChars_decomp {n : Nat} (h : ¬n < 10) :
    natChars n = natChars (n / 10) ++ [digitChar (n % 10)] := by
  have h0 : natChars n = natCharsAux n [] := rfl
  rw [h0]
  conv_lhs => unfold natCharsAux
  rw [dif_neg h, natCharsAux_append]

/-- Digit strings are nonempty. -/
theorem natChars_ne_nil (n : Nat) : natChars n ≠ [] := by
  by_cases h : n < 10
  · unfold natChars natCharsAux
    simp [h]
  · rw [natChars_decomp h]
    simp

/-- Every character of a digit string is a digit character. -/
theorem mem_natChars {n : Nat} :
    ∀ c ∈ natChars n, ∃ k, k < 10 ∧ c = digitChar k := by
  induction n using Nat.strong_induction_on with
  | _ n ih =>
      by_cases h : n < 10
      · intro c hc
        unfold natChars natCharsAux at hc
        simp [h] at hc
        exact ⟨n, h, hc⟩
      · intro c hc
        rw [natChars_decomp h] at hc
        rcases List.mem_append.mp hc with h1 | h1
        · exact ih (n / 10) (Nat.div_lt_self (by omega) (by omega)) c h1
        · rw [List.mem_singleton] at h1
          exact ⟨n % 10, Nat.mod_lt _ (by omega), h1⟩

/-- The hyphen never occurs in a digit string. -/
theorem hyphen_not_mem_natChars (n : Nat) : ('-') ∉ natChars n := by
  intro h
  obtain ⟨k, hk, hck⟩ := mem_natChars _ h
  exact (digitChar_facts k hk).2.2.1 hck.symm

/-- Reading the decimal rendering back yields the original number. -/
theorem digitsToNat_natChars : ∀ n : Nat, digitsToNat (natChars n) = n := by
  intro n
  induction n using Nat.strong_induction_on with
  | _ n ih =>
      by_cases h : n < 10
      · have htn := (digitChar_facts n h).2.2.2.2.2
        unfold natChars natCharsAux
        rw [dif_pos h]
        unfold digitsToNat
        simp only [List.foldl_cons, List.foldl_nil]
        rw [htn]
        omega
      · rw [natChars_decomp h]
        unfold digitsToNat
        rw [List.foldl_append]
        have hmod := (digitChar_facts (n % 10) (Nat.mod_lt _ (by omega))).2.2.2.2.2
        have hdiv := ih (n / 10) (Nat.div_lt_self (by omega) (by omega))
        unfold digitsToNat at hdiv
        simp only [List.foldl_cons, List.foldl_nil]
        rw [hdiv, hmod]
        omega

/-- A list none of whose characters satisfies `p` is untouched by
`dropWhile`. -/
theorem dropWhile_all_false {p : Char → Bool} {l : List Char}
    (h : ∀ c ∈ l, p c = false) : l.dropWhile p = l := by
  cases l with
  | nil => rfl
  | cons x xs =>
      rw [List.dropWhile_cons, h x (by simp)]
      simp

/-- A list all of whose characters satisfy `p` is untouched by
`takeWhile`. -/
theorem takeWhile_all_true {p : Char → Bool} :
    ∀ l : List Char, (∀ c ∈ l, p c = true) → l.takeWhile p = l := by
  intro l
  induction l with
  | nil => intro _; rfl
  | cons x xs ih =>
      intro h
      rw [List.takeWhile_cons, h x (by simp), if_pos rfl,
        ih (fun c hc => h c (by simp [hc]))]

/-- Trimming is the identity on whitespace-free strings. -/
theorem trimChars_eq_self {l : List Char}
    (h : ∀ c ∈ l, c.isWhitespace = false) : trimChars l = l := by
  unfold trimChars
  rw [dropWhile_all_false h,
    dropWhile_all_false (fun c hc => h c (List.mem_reverse.mp hc))]
  exact List.reverse_reverse l

/-- Characters of a rendered token: the hyphen or a digit. -/
theorem mem_renderToken {t : PageToken} :
    ∀ c ∈ renderToken t, c = '-' ∨ ∃ k, k < 10 ∧ c = digitChar k := by
  intro c hc
  cases t with
  | single n => exact Or.inr (mem_natChars c hc)
  | range a b =>
      unfold renderToken at hc
      rcases List.mem_append.mp hc with h1 | h1
      · exact Or.inr (mem_natChars c h1)
      · rcases List.mem_cons.mp h1 with rfl | h2
        · exact Or.inl rfl
        · exact Or.inr (mem_natChars c h2)

/-- Token characters are never whitespace. -/
theorem renderToken_not_ws {t : PageToken} :
    ∀ c ∈ renderToken t, c.isWhitespace = false := by
  intro c hc
  rcases mem_renderToken c hc with rfl | ⟨k, hk, rfl⟩
  · decide
  · exact (digitChar_facts k hk).2.1

/-- The comma never occurs inside a rendered token. -/
theorem comma_not_mem_renderToken (t : PageToken) : (',') ∉ renderToken t := by
  intro hc
  rcases mem_renderToken _ hc with h | ⟨k, hk, h⟩
  · exact absurd h (by decide)
  · exact (digitChar_facts k hk).2.2.2.1 h.symm

/-- Trimming a digit string is the identity. -/
theorem jsTrim_natChars (n : Nat) :
    jsTrim ⟨natChars n⟩ = (⟨natChars n⟩ : String) := by
  unfold jsTrim
  congr 1
  exact trimChars_eq_self (renderToken_not_ws (t := PageToken.single n))

/-- `parseInt` of a rendered natural number. -/
theorem parseIntJS_natChars (n : Nat) :
    parseIntJS ⟨natChars n⟩ = some (n : Int) := by
  obtain ⟨c, rest, hcr⟩ := List.exists_cons_of_ne_nil (natChars_ne_nil n)
  have hdigit : ∀ x ∈ natChars n, Char.isDigit x = true := by
    intro x hx
    obtain ⟨k, hk, rfl⟩ := mem_natChars x hx
    exact (digitChar_facts k hk).1
  have hws : ∀ x ∈ natChars n, Char.isWhitespace x = false := by
    intro x hx
    obtain ⟨k, hk, rfl⟩ := mem_natChars x hx
    exact (digitChar_facts k hk).2.1
  have hcmem : c ∈ natChars n := by rw [hcr]; simp
  obtain ⟨k, hk, hck⟩ := mem_natChars c hcmem
  have hne1 : c ≠ '-' := by rw [hck]; exact (digitChar_facts k hk).2.2.1
  have hne2 : c ≠ '+' := by rw [hck]; exact (digitChar_facts k hk).2.2.2.2.1
  have hdrop : (c :: rest).dropWhile Char.isWhitespace = c :: rest := by
    rw [← hcr]
    exact dropWhile_all_false hws
  have htake : (c :: rest).takeWhile Char.isDigit = c :: rest := by
    rw [← hcr]
    exact takeWhile_all_true _ hdigit
  have hfin : digitsToNat (c :: rest) = n := by
    rw [← hcr]
    exact digitsToNat_natChars n
  have hb1 : (some c = some '-') = False := by simp [hne1]
  have hb2 : (some c = some '+') = False := by simp [hne2]
  conv_lhs => rw [hcr]
  simp only [parseIntJS]
  simp [hdrop, htake, hb1, hb2, hfin]

/-- Membership in `setAdd`. -/
theorem mem_setAdd {acc : List (Option Int)} {v w : Option Int} :
    w ∈ setAdd acc v ↔ w ∈ acc ∨ w = v := by
  unfold setAdd
  by_cases h : v ∈ acc
  · rw [if_pos h]
    constructor
    · exact Or.inl
    · rintro (hw | rfl)
      · exact hw
      · exact h
  · rw [if_neg h]
    simp

/-- `setAdd` preserves distinctness. -/
theorem setAdd_nodup {acc : List (Option Int)} (h : acc.Nodup)
    (v : Option Int) : (setAdd acc v).Nodup := by
  unfold setAdd
  by_cases hv : v ∈ acc
  · rw [if_pos hv]; exact h
  · rw [if_neg hv]
    simp [List.nodup_append, h, hv]

/-- The fold of `setAdd` collects exactly the seeds and the added values,
without duplicates. -/
theorem foldl_setAdd_spec :
    ∀ (l acc : List (Option Int)), acc.Nodup →
      (l.foldl setAdd acc).Nodup ∧
        ∀ v, v ∈ l.foldl setAdd acc ↔ v ∈ acc ∨ v ∈ l := by
  intro l
  induction l with
  | nil =>
      intro acc h
      exact ⟨h, by simp⟩
  | cons x xs ih =>
      intro acc h
      obtain ⟨h1, h2⟩ := ih (setAdd acc x) (setAdd_nodup h x)
      refine ⟨h1, ?_⟩
      intro v
      rw [List.foldl_cons, h2 v, mem_setAdd, List.mem_cons]
      tauto

/-- One `forEach` iteration on a rendered token adds exactly the token's
denoted values to the set. -/
theorem parseStep_renderToken (pages : List (Option Int)) (t : PageToken) :
    parseStep pages ⟨renderToken t⟩ =
      ((tokDenote t).map some).foldl setAdd pages := by
  cases t with
  | single n =>
      have hcont : (natChars n).contains '-' = false := by
        simp [hyphen_not_mem_natChars n]
      simp only [parseStep, renderToken, jsTrim_natChars, hcont,
        Bool.false_eq_true, if_false]
      rw [parseIntJS_natChars]
      rfl
  | range a b =>
      have hcont : (natChars a ++ '-' :: natChars b).contains '-' = true := by
        simp
      have htrim : jsTrim ⟨natChars a ++ '-' :: natChars b⟩ =
          (⟨natChars a ++ '-' :: natChars b⟩ : String) := by
        unfold jsTrim
        congr 1
        exact trimChars_eq_self (renderToken_not_ws (t := PageToken.range a b))
      have hinter : List.intercalate ['-'] [natChars a, natChars b] =
          natChars a ++ '-' :: natChars b := by
        simp [List.intercalate]
      have hsplit2 : jsSplit ⟨natChars a ++ '-' :: natChars b⟩ '-' =
          [⟨natChars a⟩, ⟨natChars b⟩] := by
        unfold jsSplit
        have hx : ∀ l ∈ [natChars a, natChars b], ('-') ∉ l := by
          intro l hl
          rcases List.mem_cons.mp hl with rfl | hl2
          · exact hyphen_not_mem_natChars a
          · rcases List.mem_cons.mp hl2 with rfl | hl3
            · exact hyphen_not_mem_natChars b
            · cases hl3
        rw [show ((⟨natChars a ++ '-' :: natChars b⟩ : String)).data =
          natChars a ++ '-' :: natChars b from rfl]
        rw [← hinter,
          List.splitOn_intercalate [natChars a, natChars b] '-' hx (by simp)]
        rfl
      simp only [parseStep, renderToken, htrim, hcont, if_true, hsplit2,
        List.map_cons, List.map_nil, jsTrim_natChars, parseIntJS_natChars]
      unfold addRange tokDenote
      rw [List.foldl_map]
      rfl

/-- The whole comma fold over rendered tokens is the `setAdd` fold over
all denoted values. -/
theorem foldl_parseStep_tokens :
    ∀ (toks : List PageToken) (acc : List (Option Int)),
      (toks.map (fun t => (⟨renderToken t⟩ : String))).foldl parseStep acc =
        ((toks.flatMap tokDenote).map some).foldl setAdd acc := by
  intro toks
  induction toks with
  | nil => intro acc; rfl
  | cons t ts ih =>
      intro acc
      simp only [List.map_cons, List.foldl_cons, List.flatMap_cons,
        List.map_append]
      rw [parseStep_renderToken, ih, List.foldl_append]

/-- A list whose every element is a `some` is the `some`-image of its
values. -/
theorem eq_map_filterMap_of_all_some :
    ∀ l : List (Option Int), (∀ v ∈ l, v.isSome = true) →
      l = (l.filterMap id).map some := by
  intro l
  induction l with
  | nil => intro _; rfl
  | cons x xs ih =>
      intro h
      cases x with
      | none => exact absurd (h none (by simp)) (by simp)
      | some v =>
          rw [List.filterMap_cons]
          simp only [id_eq]
          rw [List.map_cons]
          rw [← ih (fun w hw => h w (List.mem_cons_of_mem _ hw))]

/-- C1: for every comma-separated expression of well-formed tokens (each
a single integer or a hyphenated inclusive range), `parsePageRange`
returns the deduplicated, ascending-sorted sequence of the denoted page
numbers (a single integer contributes itself, `a-b` every integer from
`a` to `b` inclusive, a reversed range nothing), so the output is
ascending and duplicate-free; in particular `"1,3,5-7"` yields
`[1,3,5,6,7]`, `"2-2"` yields `[2]`, `"7-5"` yields `[]`, and `"1,1,2"`
yields `[1,2]`. -/
theorem C1_parsePageRange_spec :
    (∀ toks : List PageToken, toks ≠ [] →
        parsePageRange (renderExpr toks) = (specPages toks).map some ∧
          List.Sorted (· < ·) (specPages toks)) ∧
      parsePageRange "1,3,5-7" = [some 1, some 3, some 5, some 6, some 7] ∧
      parsePageRange "2-2" = [some 2] ∧
      parsePageRange "7-5" = [] ∧
      parsePageRange "1,1,2" = [some 1, some 2] := by
  refine ⟨?_, by decide, by decide, by decide, by decide⟩
  intro toks hne
  have hsplit : jsSplit (renderExpr toks) ',' =
      toks.map (fun t => (⟨renderToken t⟩ : String)) := by
    unfold jsSplit renderExpr
    have hx : ∀ l ∈ toks.map renderToken, (',') ∉ l := by
      intro l hl
      obtain ⟨t, -, rfl⟩ := List.mem_map.mp hl
      exact comma_not_mem_renderToken t
    have hnil : toks.map renderToken ≠ [] := by
      simpa using hne
    rw [show ((⟨List.intercalate [','] (toks.map renderToken)⟩ : String)).data =
      List.intercalate [','] (toks.map renderToken) from rfl]
    rw [List.splitOn_intercalate (toks.map renderToken) ',' hx hnil,
      List.map_map]
    rfl
  unfold parsePageRange
  rw [hsplit, foldl_parseStep_tokens]
  obtain ⟨hLnd, hLmem⟩ := foldl_setAdd_spec
    ((toks.flatMap tokDenote).map some) [] List.nodup_nil
  have hmem : ∀ v, v ∈ ((toks.flatMap tokDenote).map some).foldl setAdd [] ↔
      v ∈ (toks.flatMap tokDenote).map some := by
    intro v
    rw [hLmem v]
    simp
  have hsome : ∀ v ∈ ((toks.flatMap tokDenote).map some).foldl setAdd [],
      v.isSome = true := by
    intro v hv
    obtain ⟨x, -, rfl⟩ := List.mem_map.mp ((hmem v).mp hv)
    rfl
  have hall : (((toks.flatMap tokDenote).map some).foldl setAdd []).all
      Option.isSome = true := List.all_eq_true.mpr hsome
  unfold jsNumSort
  rw [if_pos hall]
  have hLeq := eq_map_filterMap_of_all_some _ hsome
  have hFnd : ((((toks.flatMap tokDenote).map some).foldl setAdd
      []).filterMap id).Nodup := by
    have h0 := hLnd
    rw [hLeq] at h0
    exact h0.of_map _
  have hFmem : ∀ x : Int,
      x ∈ (((toks.flatMap tokDenote).map some).foldl setAdd []).filterMap id ↔
        x ∈ toks.flatMap tokDenote := by
    intro x
    constructor
    · intro hx
      have h1 : some x ∈ ((toks.flatMap tokDenote).map some).foldl setAdd [] := by
        rw [hLeq]
        exact List.mem_map_of_mem some hx
      obtain ⟨y, hy, hxy⟩ := List.mem_map.mp ((hmem _).mp h1)
      obtain rfl := Option.some.inj hxy
      exact hy
    · intro hx
      have h1 : some x ∈ ((toks.flatMap tokDenote).map some).foldl setAdd [] :=
        (hmem _).mpr (List.mem_map_of_mem some hx)
      rw [hLeq] at h1
      obtain ⟨y, hy, hxy⟩ := List.mem_map.mp h1
      obtain rfl := Option.some.inj hxy
      exact hy
  have hDnd := List.nodup_dedup (toks.flatMap tokDenote)
  have hperm : ((((toks.flatMap tokDenote).map some).foldl setAdd
      []).filterMap id).Perm ((toks.flatMap tokDenote).dedup) :=
    (List.perm_ext_iff_of_nodup hFnd hDnd).mpr
      (fun x => by rw [hFmem x, List.mem_dedup])
  have hsorteq : ((((toks.flatMap tokDenote).map some).foldl setAdd
      []).filterMap id).insertionSort (· ≤ ·) =
        ((toks.flatMap tokDenote).dedup).insertionSort (· ≤ ·) := by
    exact @List.eq_of_perm_of_sorted Int (fun a b => a ≤ b) inferInstance _ _
      ((List.perm_insertionSort _ _).trans
        (hperm.trans (List.perm_insertionSort _ _).symm))
      (List.sorted_insertionSort _ _) (List.sorted_insertionSort _ _)
  constructor
  · rw [hsorteq]
    rfl
  · have hsorted := List.sorted_insertionSort (α := Int) (· ≤ ·)
      ((toks.flatMap tokDenote).dedup)
    have hnd2 : (specPages toks).Nodup :=
      ((List.perm_insertionSort (α := Int) (· ≤ ·)
        ((toks.flatMap tokDenote).dedup)).nodup_iff).mpr hDnd
    exact List.Sorted.lt_of_le hsorted hnd2

/-- C1 witness: concrete evaluation on the token list `1, 2-3`. -/
theorem C1_parsePageRange_spec_witness :
    parsePageRange (renderExpr [PageToken.single 1, PageToken.range 2 3]) =
        (specPages [PageToken.single 1, PageToken.range 2 3]).map some ∧
      List.Sorted (· < ·) (specPages [PageToken.single 1, PageToken.range 2 3]) :=
  C1_parsePageRange_spec.1 [PageToken.single 1, PageToken.range 2 3] (by decide)

end PdfMaster
